import Mathlib

set_option maxHeartbeats 1000000

/-! Formal model of the `benchmark.py` Christoffel-symbol computation.

The source computes Christoffel symbols of the second kind for a symbolic
metric with two symbolic-algebra backends (`christoffels_reference` using
the canonical kernel and `christoffels_symengine` using the fast kernel),
wrapped in a timing decorator.  The symbolic kernels themselves are external
collaborators; they are modelled here by one expression type with exact
symbolic differentiation, adjugate-based symbolic matrix inversion, and the
automatic numeric simplification the kernels apply to sums and products. -/

/-- Symbolic expression tree: integer constants, coordinate symbols,
arithmetic (including reciprocals), sine, cosine and natural powers.  This is the shared shape of
the expressions both kernels manipulate. -/
inductive Expr : Type where
  | const : ℤ → Expr
  | sym : ℕ → Expr
  | add : Expr → Expr → Expr
  | mul : Expr → Expr → Expr
  | neg : Expr → Expr
  | inv : Expr → Expr
  | sin : Expr → Expr
  | cos : Expr → Expr
  | pow : Expr → ℕ → Expr
  deriving DecidableEq, Repr

namespace Expr

/-- Semantics: evaluate an expression at a real assignment of the symbols.
Inverses use the Mathlib total inverse (zero inverse of zero). -/
noncomputable def eval (v : ℕ → ℝ) : Expr → ℝ
  | const q => (q : ℝ)
  | sym n => v n
  | add a b => eval v a + eval v b
  | mul a b => eval v a * eval v b
  | neg a => -(eval v a)
  | inv a => (eval v a)⁻¹
  | sin a => Real.sin (eval v a)
  | cos a => Real.cos (eval v a)
  | pow a n => eval v a ^ n

/-- Addition as built by the kernels: numeric constants are combined and a
zero summand disappears (the automatic simplification of symbolic sums). -/
def addE (a b : Expr) : Expr :=
  match a, b with
  | const x, const y => const (x + y)
  | const x, b => if x = 0 then b else add (const x) b
  | a, const y => if y = 0 then a else add a (const y)
  | a, b => add a b

/-- Multiplication as built by the kernels: numeric constants are combined,
a zero factor collapses the product and a unit factor disappears. -/
def mulE (a b : Expr) : Expr :=
  match a, b with
  | const x, const y => const (x * y)
  | const x, b => if x = 0 then const 0 else if x = 1 then b else mul (const x) b
  | a, const y => if y = 0 then const 0 else if y = 1 then a else mul a (const y)
  | a, b => mul a b

/-- Negation as built by the kernels: a numeric constant is negated in place. -/
def negE : Expr → Expr
  | const x => const (-x)
  | a => neg a

/-- Reciprocal as built by the kernels: the symbolic reciprocal node. -/
def invE (a : Expr) : Expr := inv a

/-- Subtraction, as addition of the negation. -/
def subE (a b : Expr) : Expr := addE a (negE b)

/-- Division, as multiplication by the reciprocal. -/
def divE (a b : Expr) : Expr := mulE a (invE b)

/-- Multiply by the sign `(-1) ^ j`, used by the cofactor expansion. -/
def mulSign (j : ℕ) (a : Expr) : Expr := if j % 2 = 0 then a else negE a

/-- Exact symbolic differentiation with respect to symbol `s`, modelling the
canonical kernel capability `diff(expression, symbol)`. -/
def diff (s : ℕ) : Expr → Expr
  | const _ => const 0
  | sym n => if n = s then const 1 else const 0
  | add a b => addE (diff s a) (diff s b)
  | mul a b => addE (mulE (diff s a) b) (mulE a (diff s b))
  | neg a => negE (diff s a)
  | inv a => negE (mulE (diff s a) (invE (pow a 2)))
  | sin a => mulE (cos a) (diff s a)
  | cos a => negE (mulE (sin a) (diff s a))
  | pow a n => mulE (mulE (const (n : ℤ)) (pow a (n - 1))) (diff s a)

/-- Exact symbolic differentiation as performed by the fast kernel: the same
calculus rules with a different arrangement of the produced terms, modelling
a backend whose internal expression forms differ from the canonical one. -/
def diffB (s : ℕ) : Expr → Expr
  | const _ => const 0
  | sym n => if n = s then const 1 else const 0
  | add a b => addE (diffB s a) (diffB s b)
  | mul a b => addE (mulE a (diffB s b)) (mulE (diffB s a) b)
  | neg a => negE (diffB s a)
  | inv a => negE (mulE (invE (pow a 2)) (diffB s a))
  | sin a => mulE (diffB s a) (cos a)
  | cos a => negE (mulE (diffB s a) (sin a))
  | pow a n => mulE (pow a (n - 1)) (mulE (const (n : ℤ)) (diffB s a))

end Expr

/-- Errors surfaced to the caller, mirroring the Python exceptions: an
out-of-range sequence access, a singular matrix inside `inv`, and `inv`
applied to a non-square matrix. -/
inductive PyErr : Type where
  | indexError : PyErr
  | nonInvertible : PyErr
  | nonSquare : PyErr
  deriving DecidableEq, Repr

/-- Bounds-checked sequence access, modelling Python indexing: an
out-of-range index raises. -/
def getE {α : Type} (l : List α) (n : ℕ) : Except PyErr α :=
  match l[n]? with
  | some a => Except.ok a
  | none => Except.error PyErr.indexError

/-- Remove column `j` from every row. -/
def dropCol (j : ℕ) (rows : List (List Expr)) : List (List Expr) :=
  rows.map (fun r => r.eraseIdx j)

/-- One cofactor-expansion pass over the first row: accumulate
`(-1) ^ j * entry * md j` terms with the kernel constructors, where `md j`
is the determinant of the minor obtained by deleting column `j`. -/
def detExpand (md : ℕ → Expr) : ℕ → List Expr → Expr
  | _, [] => Expr.const 0
  | j, a :: as =>
      Expr.addE (Expr.mulSign j (Expr.mulE a (md j))) (detExpand md (j + 1) as)

/-- Symbolic determinant by cofactor expansion along the first row, with a
fuel argument bounding the recursion depth (the fuel equals the number of
remaining rows on every call made with adequate fuel). -/
def detFuel : ℕ → List (List Expr) → Expr
  | _, [] => Expr.const 1
  | 0, _ :: _ => Expr.const 0
  | fuel + 1, r :: rest => detExpand (fun j => detFuel fuel (dropCol j rest)) 0 r

/-- Symbolic determinant of a nested-list matrix. -/
def det (m : List (List Expr)) : Expr := detFuel m.length m

/-- Minor of a matrix: remove row `i` and column `j`. -/
def minorM (i j : ℕ) (m : List (List Expr)) : List (List Expr) :=
  dropCol j (m.eraseIdx i)

/-- Entry `(i, j)` of the adjugate-formula symbolic inverse with determinant
`d`: the `(j, i)` cofactor divided by the determinant. -/
def matInvEntry (m : List (List Expr)) (d : Expr) (i j : ℕ) : Expr :=
  Expr.mulSign (i + j) (Expr.divE (det (minorM j i m)) d)

/-- Whether every row has as many entries as there are rows. -/
def isSquare (m : List (List Expr)) : Bool :=
  m.all (fun r => r.length == m.length)

/-- Symbolic matrix inversion, modelling the kernel capability `mat.inv()`:
it fails on a non-square matrix, fails when the kernel-simplified
determinant is the zero expression, and otherwise returns the matrix of
adjugate-formula entries. -/
def matInv (m : List (List Expr)) : Except PyErr (List (List Expr)) :=
  if isSquare m then
    if det m = Expr.const 0 then Except.error PyErr.nonInvertible
    else Except.ok ((List.range m.length).map (fun i =>
      (List.range m.length).map (fun j => matInvEntry m (det m) i j)))
  else Except.error PyErr.nonSquare

/-- Rank-3 nested-list tensor of symbolic expressions. -/
abbrev Tensor3 := List (List (List Expr))

/-- The `np.zeros(shape=(d, d, d)).tolist()` result container, with the
placeholder zeros represented as the exact zero expression. -/
def zeros3 (d : ℕ) : Tensor3 :=
  List.replicate d (List.replicate d (List.replicate d (Expr.const 0)))

/-- Read entry `(i, j, k)` of a rank-3 nested-list tensor. -/
def get3 (t : Tensor3) (i j k : ℕ) : Expr :=
  ((t.getD i []).getD j []).getD k (Expr.const 0)

/-- The in-place assignment `christlist[i][j][k] = e` on the nested lists. -/
def set3 (t : Tensor3) (i j k : ℕ) (e : Expr) : Tensor3 :=
  t.set i ((t.getD i []).set j (((t.getD i []).getD j []).set k e))

/-- Decomposition of the linear loop counter used by both engines:
`k = t % dims`, `j = t / dims % dims`, `i = t / dims ^ 2 % dims`. -/
def tripleOfIndex (dims t : ℕ) : ℕ × ℕ × ℕ :=
  (t / dims ^ 2 % dims, t / dims % dims, t % dims)

/-- A symbolic backend: its differentiation routine and the conversion it
applies to each computed entry before storing it. -/
structure Kernel : Type where
  kdiff : ℕ → Expr → Expr
  kconv : Expr → Expr

/-- One summand of the inner loop:
`(mat_inv[i, n] / 2) * (diff(list2d[n][j], syms[k]) + diff(list2d[n][k], syms[j]) - diff(list2d[j][k], syms[n]))`,
with every sequence access bounds-checked. -/
def christTermG (K : Kernel) (l2 mI : List (List Expr)) (syms : List ℕ)
    (i j k n : ℕ) : Except PyErr Expr := do
  let rowI ← getE mI i
  let minv ← getE rowI n
  let rn ← getE l2 n
  let mnj ← getE rn j
  let mnk ← getE rn k
  let rj ← getE l2 j
  let mjk ← getE rj k
  let sk ← getE syms k
  let sj ← getE syms j
  let sn ← getE syms n
  pure (Expr.mulE (Expr.divE minv (Expr.const 2))
    (Expr.subE (Expr.addE (K.kdiff sk mnj) (K.kdiff sj mnk)) (K.kdiff sn mjk)))

/-- The inner loop `for n in range(dims): temp += ...`, starting from the
integer zero `temp`. -/
def christSumG (K : Kernel) (l2 mI : List (List Expr)) (syms : List ℕ)
    (i j k : ℕ) : Expr → List ℕ → Except PyErr Expr
  | acc, [] => Except.ok acc
  | acc, n :: ns => do
    let t ← christTermG K l2 mI syms i j k n
    christSumG K l2 mI syms i j k (Expr.addE acc t) ns

/-- The outer loop over the linear counter list, assigning
`christlist[i][j][k] = conv(temp)` for each counter value. -/
def christLoopG (K : Kernel) (l2 mI : List (List Expr)) (syms : List ℕ)
    (dims : ℕ) : Tensor3 → List ℕ → Except PyErr Tensor3
  | cl, [] => Except.ok cl
  | cl, t :: ts => do
    let trip := tripleOfIndex dims t
    let temp ← christSumG K l2 mI syms trip.1 trip.2.1 trip.2.2 (Expr.const 0)
      (List.range dims)
    christLoopG K l2 mI syms dims (set3 cl trip.1 trip.2.1 trip.2.2 (K.kconv temp)) ts

/-- The common body of the two engines: take the dimension from the symbol
list, allocate the zero container, invert the metric once, and run the
counter loop. -/
def christoffelsG (K : Kernel) (list2d : List (List Expr)) (syms : List ℕ) :
    Except PyErr Tensor3 := do
  let dims := syms.length
  let christlist := zeros3 dims
  let matInvL ← matInv list2d
  christLoopG K list2d matInvL syms dims christlist (List.range (dims ^ 3))

/-- Conversion of a fast-kernel expression to the canonical representation
(the `sympy.S(temp)` call).  Modelled from the spec: the conversion is exact
and the model shares one expression type, so it is the identity embedding. -/
def sympyS (e : Expr) : Expr := e

/-- The canonical kernel: canonical differentiation, entries stored as they
are. -/
def sympyKernel : Kernel := Kernel.mk Expr.diff (fun e => e)

/-- The fast kernel: the alternate differentiation arrangement, entries
converted to the canonical representation before being stored. -/
def symengineKernel : Kernel := Kernel.mk Expr.diffB sympyS

/-- The reference engine `christoffels_reference` from `benchmark.py`. -/
def christoffels_reference (list2d : List (List Expr)) (syms : List ℕ) :
    Except PyErr Tensor3 :=
  christoffelsG sympyKernel list2d syms

/-- The fast engine `christoffels_symengine` from `benchmark.py`. -/
def christoffels_symengine (list2d : List (List Expr)) (syms : List ℕ) :
    Except PyErr Tensor3 :=
  christoffelsG symengineKernel list2d syms

/-- Total double access `m[i][j]` with junk defaults, used to state the
pure characterization of the loops. -/
def getD2 (m : List (List Expr)) (i j : ℕ) : Expr := (m.getD i []).getD j (Expr.const 0)

/-- The pure value of one summand of the inner loop at in-range indices. -/
def termPureG (K : Kernel) (l2 mI : List (List Expr)) (syms : List ℕ)
    (i j k n : ℕ) : Expr :=
  Expr.mulE (Expr.divE (getD2 mI i n) (Expr.const 2))
    (Expr.subE
      (Expr.addE (K.kdiff (syms.getD k 0) (getD2 l2 n j))
        (K.kdiff (syms.getD j 0) (getD2 l2 n k)))
      (K.kdiff (syms.getD n 0) (getD2 l2 j k)))

/-- The pure value of the inner loop for the triple `(i, j, k)`. -/
def christEntryG (K : Kernel) (l2 mI : List (List Expr)) (syms : List ℕ)
    (d i j k : ℕ) : Expr :=
  (List.range d).foldl (fun acc n => Expr.addE acc (termPureG K l2 mI syms i j k n))
    (Expr.const 0)

/-- The pure value of the outer loop: fold the per-triple assignments over
the counter list. -/
def christLoopPureG (K : Kernel) (l2 mI : List (List Expr)) (syms : List ℕ)
    (d : ℕ) : Tensor3 → List ℕ → Tensor3
  | cl, [] => cl
  | cl, t :: ts =>
    let trip := tripleOfIndex d t
    christLoopPureG K l2 mI syms d
      (set3 cl trip.1 trip.2.1 trip.2.2
        (K.kconv (christEntryG K l2 mI syms d trip.1 trip.2.1 trip.2.2))) ts

/-- The matrix `m` has at least `d` rows, each with at least `d` entries:
every access the loops perform at indices below `d` is then in range. -/
def Sq (m : List (List Expr)) (d : ℕ) : Prop :=
  d ≤ m.length ∧ ∀ r ∈ m, d ≤ r.length

/-- A rank-3 nested-list tensor of exact shape `d × d × d`. -/
def shape3 (t : Tensor3) (d : ℕ) : Prop :=
  t.length = d ∧ ∀ p ∈ t, p.length = d ∧ ∀ r ∈ p, r.length = d

/-- The `n × n` identity matrix as a symbolic metric, built recursively:
the first row is `1, 0, ..., 0` and each further row prepends a `0` to the
corresponding row of the `(n-1) × (n-1)` identity matrix. -/
def idMetric : ℕ → List (List Expr)
  | 0 => []
  | n + 1 =>
      (Expr.const 1 :: List.replicate n (Expr.const 0)) ::
        (idMetric n).map (fun r => Expr.const 0 :: r)

/-- The 3-dimensional spherical metric `diag(1, r ^ 2, r ^ 2 * sin(theta) ^ 2)`
built by `main()`, with symbol 0 as `r`, symbol 1 as `theta`, symbol 2 as
`phi`. -/
def sphMetric : List (List Expr) :=
  [[Expr.const 1, Expr.const 0, Expr.const 0],
   [Expr.const 0, Expr.pow (Expr.sym 0) 2, Expr.const 0],
   [Expr.const 0, Expr.const 0,
    Expr.mul (Expr.pow (Expr.sym 0) 2) (Expr.pow (Expr.sin (Expr.sym 1)) 2)]]

/-- The coordinate symbols `(r, theta, phi)` of `main()`. -/
def sphSyms : List ℕ := [0, 1, 2]

/-- The determinant expression of the spherical metric as the modelled
kernel computes it: `r ^ 2 * (r ^ 2 * sin(theta) ^ 2)`. -/
def sphA : Expr :=
  Expr.mul (Expr.pow (Expr.sym 0) 2)
    (Expr.mul (Expr.pow (Expr.sym 0) 2) (Expr.pow (Expr.sin (Expr.sym 1)) 2))

/-- The minor determinant `r ^ 2 * sin(theta) ^ 2` of the spherical metric. -/
def sphB : Expr :=
  Expr.mul (Expr.pow (Expr.sym 0) 2) (Expr.pow (Expr.sin (Expr.sym 1)) 2)

/-- The minor determinant `r ^ 2` of the spherical metric. -/
def sphC : Expr := Expr.pow (Expr.sym 0) 2

/-- The inverse of the spherical metric as computed by the modelled kernel
inversion: each diagonal entry is the matching minor determinant divided by
the determinant, and the off-diagonal entries fold to zero. -/
def sphInv : List (List Expr) :=
  [[Expr.mul sphA (Expr.inv sphA), Expr.const 0, Expr.const 0],
   [Expr.const 0, Expr.mul sphB (Expr.inv sphA), Expr.const 0],
   [Expr.const 0, Expr.const 0, Expr.mul sphC (Expr.inv sphA)]]

/-- Ambient state of the timing harness: the wall clock and the printed
report lines (recorded as name-duration pairs). -/
structure World : Type where
  now : ℚ
  log : List (String × ℚ)

/-- A computation observed by the timing harness: it may advance the clock,
append output, and either return a value or raise. -/
def Comp (β : Type) : Type := World → World × Except PyErr β

namespace Bench

/-- The `timeit` decorator: read the clock, run the wrapped computation with
its original arguments, read the clock again, report the elapsed time, and
return the wrapped result unchanged.  When the wrapped computation raises,
the exception propagates before any report is made. -/
def timeit {α β : Type} (name : String) (func : α → Comp β) : α → Comp β :=
  fun a w =>
    let start := w.now
    match func a w with
    | (w1, Except.error e) => (w1, Except.error e)
    | (w1, Except.ok value) =>
      let runtime := w1.now - start
      (World.mk w1.now (w1.log ++ [(name, runtime)]), Except.ok value)

end Bench

namespace Expr

@[simp] theorem eval_addE (v : ℕ → ℝ) (a b : Expr) :
    eval v (addE a b) = eval v a + eval v b := by
  cases a <;> cases b <;> simp [addE, eval] <;> split_ifs <;> simp_all [eval]

@[simp] theorem eval_mulE (v : ℕ → ℝ) (a b : Expr) :
    eval v (mulE a b) = eval v a * eval v b := by
  cases a <;> cases b <;> simp [mulE, eval] <;> split_ifs <;> simp_all [eval]

@[simp] theorem eval_negE (v : ℕ → ℝ) (a : Expr) :
    eval v (negE a) = -(eval v a) := by
  cases a <;> simp [negE, eval]

@[simp] theorem eval_invE (v : ℕ → ℝ) (a : Expr) :
    eval v (invE a) = (eval v a)⁻¹ := rfl

@[simp] theorem eval_subE (v : ℕ → ℝ) (a b : Expr) :
    eval v (subE a b) = eval v a - eval v b := by
  simp [subE]; ring

@[simp] theorem eval_divE (v : ℕ → ℝ) (a b : Expr) :
    eval v (divE a b) = eval v a / eval v b := by
  simp [divE]; ring

theorem eval_mulSign (v : ℕ → ℝ) (j : ℕ) (a : Expr) :
    eval v (mulSign j a) = if j % 2 = 0 then eval v a else -(eval v a) := by
  unfold mulSign; split_ifs <;> simp

/-- The two kernels differentiate to different expression arrangements with
the same mathematical value. -/
theorem eval_diffB (v : ℕ → ℝ) (s : ℕ) : ∀ a : Expr,
    eval v (diffB s a) = eval v (diff s a) := by
  intro a
  induction a <;> simp [diff, diffB, eval, *] <;> ring

end Expr

theorem getE_ok {α : Type} (l : List α) (n : ℕ) (d : α) (h : n < l.length) :
    getE l n = Except.ok (l.getD n d) := by
  simp [getE, List.getElem?_eq_getElem h, List.getD_eq_getElem l d h]

theorem getE_err {α : Type} (l : List α) (n : ℕ) (h : l.length ≤ n) :
    getE l n = Except.error PyErr.indexError := by
  simp [getE, List.getElem?_eq_none h]

theorem getD_set_self {α : Type} (l : List α) (i : ℕ) (x d : α) (h : i < l.length) :
    (l.set i x).getD i d = x := by
  simp [List.getD_eq_getElem?_getD, List.getElem?_set, h]

theorem getD_set_ne {α : Type} (l : List α) (i' i : ℕ) (x d : α) (h : i' ≠ i) :
    (l.set i' x).getD i d = l.getD i d := by
  simp [List.getD_eq_getElem?_getD, List.getElem?_set, h]

theorem shape3_zeros3 (d : ℕ) : shape3 (zeros3 d) d := by
  refine ⟨by simp [zeros3], ?_⟩
  intro p hp
  rw [List.eq_of_mem_replicate hp]
  refine ⟨by simp, ?_⟩
  intro r hr
  rw [List.eq_of_mem_replicate hr]
  simp

theorem mulE_zero_left (b : Expr) : Expr.mulE (Expr.const 0) b = Expr.const 0 := by
  cases b <;> simp [Expr.mulE]

theorem mulE_zero_right (a : Expr) : Expr.mulE a (Expr.const 0) = Expr.const 0 := by
  cases a <;> simp [Expr.mulE]

theorem mulE_one_left (b : Expr) : Expr.mulE (Expr.const 1) b = b := by
  cases b <;> simp [Expr.mulE]

theorem addE_zero_left (b : Expr) : Expr.addE (Expr.const 0) b = b := by
  cases b <;> simp [Expr.addE]

theorem addE_zero_right (a : Expr) : Expr.addE a (Expr.const 0) = a := by
  cases a <;> simp [Expr.addE]

theorem negE_zero : Expr.negE (Expr.const 0) = Expr.const 0 := by
  simp [Expr.negE]

theorem mulSign_zero (j : ℕ) : Expr.mulSign j (Expr.const 0) = Expr.const 0 := by
  unfold Expr.mulSign; split_ifs <;> simp [negE_zero]

theorem mulSign_even (j : ℕ) (a : Expr) (h : j % 2 = 0) : Expr.mulSign j a = a := by
  simp [Expr.mulSign, h]

theorem shape3_set3 (t : Tensor3) (d i j k : ℕ) (e : Expr) (h : shape3 t d)
    (hi : i < d) (hj : j < d) (hk : k < d) :
    shape3 (set3 t i j k e) d := by
  obtain ⟨h1, h2⟩ := h
  have hi' : i < t.length := by omega
  have hrow : t.getD i [] = t[i] := List.getD_eq_getElem t [] hi'
  have hmem : t[i] ∈ t := List.getElem_mem hi'
  obtain ⟨hrl, hrr⟩ := h2 t[i] hmem
  have hj' : j < t[i].length := by omega
  have hsub : t[i].getD j [] = t[i][j] := List.getD_eq_getElem t[i] [] hj'
  have hsmem : t[i][j] ∈ t[i] := List.getElem_mem hj'
  have hsl : t[i][j].length = d := hrr t[i][j] hsmem
  refine ⟨by simp [set3, h1], ?_⟩
  intro p hp
  rcases List.mem_or_eq_of_mem_set hp with hp | rfl
  · exact h2 p hp
  · rw [hrow, hsub]
    refine ⟨by simp [hrl], ?_⟩
    intro r hr
    rcases List.mem_or_eq_of_mem_set hr with hr | rfl
    · exact hrr r hr
    · simp [hsl]

theorem get3_set3_self (t : Tensor3) (d i j k : ℕ) (e : Expr) (h : shape3 t d)
    (hi : i < d) (hj : j < d) (hk : k < d) :
    get3 (set3 t i j k e) i j k = e := by
  obtain ⟨h1, h2⟩ := h
  have hi' : i < t.length := by omega
  have hrow : t.getD i [] = t[i] := List.getD_eq_getElem t [] hi'
  obtain ⟨hrl, hrr⟩ := h2 t[i] (List.getElem_mem hi')
  have hj' : j < t[i].length := by omega
  have hsub : t[i].getD j [] = t[i][j] := List.getD_eq_getElem t[i] [] hj'
  have hsl : t[i][j].length = d := hrr t[i][j] (List.getElem_mem hj')
  unfold get3 set3
  rw [getD_set_self _ _ _ _ hi', hrow, hsub,
    getD_set_self _ _ _ _ (by omega),
    getD_set_self _ _ _ _ (by omega)]

theorem get3_set3_ne (t : Tensor3) (d i' j' k' i j k : ℕ) (e : Expr) (h : shape3 t d)
    (hi' : i' < d) (hj' : j' < d) (hk' : k' < d)
    (hne : ¬(i' = i ∧ j' = j ∧ k' = k)) :
    get3 (set3 t i' j' k' e) i j k = get3 t i j k := by
  obtain ⟨h1, h2⟩ := h
  have hlt : i' < t.length := by omega
  by_cases hii : i' = i
  · subst hii
    have hrow : t.getD i' [] = t[i'] := List.getD_eq_getElem t [] hlt
    obtain ⟨hrl, hrr⟩ := h2 (t[i']) (List.getElem_mem hlt)
    unfold get3 set3
    rw [getD_set_self _ _ _ _ hlt, hrow]
    by_cases hjj : j' = j
    · subst hjj
      have hjlt : j' < (t[i']).length := by omega
      have hsub : (t[i']).getD j' [] = (t[i'])[j'] :=
        List.getD_eq_getElem (t[i']) [] hjlt
      rw [getD_set_self _ _ _ _ hjlt, hsub]
      have hkk : k' ≠ k := by tauto
      rw [getD_set_ne _ _ _ _ _ hkk]
    · rw [getD_set_ne _ _ _ _ _ hjj]
  · unfold get3 set3
    rw [getD_set_ne _ _ _ _ _ hii]

theorem detExpand_zeros (md : ℕ → Expr) :
    ∀ (as : List Expr) (j : ℕ), (∀ e ∈ as, e = Expr.const 0) →
      detExpand md j as = Expr.const 0 := by
  intro as
  induction as with
  | nil => intro j h; rfl
  | cons a as ih =>
    intro j h
    have ha : a = Expr.const 0 := h a (by simp)
    have hs : detExpand md (j + 1) as = Expr.const 0 :=
      ih (j + 1) (fun e he => h e (by simp [he]))
    subst ha
    simp [detExpand, hs, mulE_zero_left, mulSign_zero, addE_zero_right]

theorem detExpand_md_zero (md : ℕ → Expr) (hmd : ∀ j, md j = Expr.const 0) :
    ∀ (as : List Expr) (j : ℕ), detExpand md j as = Expr.const 0 := by
  intro as
  induction as with
  | nil => intro j; rfl
  | cons a as ih =>
    intro j
    simp [detExpand, hmd j, mulE_zero_right, mulSign_zero, ih (j + 1), addE_zero_right]

theorem detFuel_zero_row : ∀ (fuel : ℕ) (m : List (List Expr)),
    (∃ r ∈ m, ∀ e ∈ r, e = Expr.const 0) → detFuel fuel m = Expr.const 0 := by
  intro fuel
  induction fuel with
  | zero =>
    intro m hm
    obtain ⟨r, hr, _⟩ := hm
    cases m with
    | nil => simp at hr
    | cons a rest => rfl
  | succ fuel ih =>
    intro m hm
    obtain ⟨r0, hr0, hz⟩ := hm
    cases m with
    | nil => simp at hr0
    | cons a rest =>
      rcases List.mem_cons.mp hr0 with rfl | hrest
      · exact detExpand_zeros _ r0 0 hz
      · refine detExpand_md_zero _ ?_ a 0
        intro j
        refine ih (dropCol j rest) ⟨r0.eraseIdx j, ?_, ?_⟩
        · exact List.mem_map_of_mem _ hrest
        · intro e he
          exact hz e ((List.eraseIdx_sublist r0 j).subset he)

theorem det_zero_row (m : List (List Expr))
    (h : ∃ r ∈ m, ∀ e ∈ r, e = Expr.const 0) : det m = Expr.const 0 :=
  detFuel_zero_row m.length m h

theorem idMetric_length : ∀ n : ℕ, (idMetric n).length = n := by
  intro n
  induction n with
  | zero => rfl
  | succ n ih => simp [idMetric, ih]

theorem idMetric_rows : ∀ n : ℕ, ∀ r ∈ idMetric n, r.length = n := by
  intro n
  induction n with
  | zero => intro r hr; simp [idMetric] at hr
  | succ n ih =>
    intro r hr
    rcases List.mem_cons.mp hr with rfl | hr
    · simp
    · obtain ⟨r0, hr0, rfl⟩ := List.mem_map.mp hr
      simp [ih r0 hr0]

theorem detFuel_idMetric : ∀ n : ℕ, detFuel n (idMetric n) = Expr.const 1 := by
  intro n
  induction n with
  | zero => rfl
  | succ n ih =>
    show detExpand _ 0 (Expr.const 1 :: List.replicate n (Expr.const 0)) = Expr.const 1
    rw [detExpand]
    rw [detExpand_zeros _ _ 1 (fun e he => List.eq_of_mem_replicate he)]
    rw [addE_zero_right]
    rw [mulSign_even 0 _ (by norm_num), mulE_one_left]
    have hdrop : dropCol 0 ((idMetric n).map (fun r => Expr.const 0 :: r)) = idMetric n := by
      unfold dropCol
      rw [List.map_map]
      have hcomp : ((fun r => List.eraseIdx r 0) ∘ fun r => Expr.const 0 :: r) =
          (id : List Expr → List Expr) := by
        funext r
        simp
      rw [hcomp, List.map_id]
    rw [hdrop, ih]

theorem det_idMetric (n : ℕ) : det (idMetric n) = Expr.const 1 := by
  unfold det
  rw [idMetric_length, detFuel_idMetric]

theorem tripleOfIndex_lt (d t : ℕ) (hd : 0 < d) :
    (tripleOfIndex d t).1 < d ∧ (tripleOfIndex d t).2.1 < d ∧
      (tripleOfIndex d t).2.2 < d :=
  ⟨Nat.mod_lt _ hd, Nat.mod_lt _ hd, Nat.mod_lt _ hd⟩

theorem tripleOfIndex_encode (d i j k : ℕ) (hi : i < d) (hj : j < d) (hk : k < d) :
    i * d ^ 2 + j * d + k < d ^ 3 ∧
      tripleOfIndex d (i * d ^ 2 + j * d + k) = (i, j, k) := by
  have hd : 0 < d := by omega
  have hbound : i * d ^ 2 + j * d + k < d ^ 3 := by
    have h1 : j * d + k < (j + 1) * d := by nlinarith
    have h2 : (j + 1) * d ≤ d * d := Nat.mul_le_mul_right d hj
    have h3 : d * d = d ^ 2 := by ring
    have h4 : i * d ^ 2 + (j * d + k) < (i + 1) * d ^ 2 := by nlinarith
    have h5 : (i + 1) * d ^ 2 ≤ d * d ^ 2 := Nat.mul_le_mul_right (d ^ 2) hi
    have h6 : d * d ^ 2 = d ^ 3 := by ring
    omega
  refine ⟨hbound, ?_⟩
  have e1 : i * d ^ 2 + j * d + k = d * (i * d + j) + k := by ring
  have hkm : (i * d ^ 2 + j * d + k) % d = k := by
    rw [e1, Nat.mul_add_mod]
    exact Nat.mod_eq_of_lt hk
  have hdiv : (i * d ^ 2 + j * d + k) / d = i * d + j := by
    rw [e1, Nat.mul_add_div hd, Nat.div_eq_of_lt hk, Nat.add_zero]
  have hjm : (i * d ^ 2 + j * d + k) / d % d = j := by
    rw [hdiv]
    have e2 : i * d + j = d * i + j := by ring
    rw [e2, Nat.mul_add_mod]
    exact Nat.mod_eq_of_lt hj
  have him : (i * d ^ 2 + j * d + k) / d ^ 2 % d = i := by
    have hp : d ^ 2 = d * d := by ring
    nth_rewrite 2 [hp]
    rw [← Nat.div_div_eq_div_mul, hdiv]
    have e2 : i * d + j = d * i + j := by ring
    rw [e2, Nat.mul_add_div hd, Nat.div_eq_of_lt hj, Nat.add_zero]
    exact Nat.mod_eq_of_lt hi
  simp [tripleOfIndex, hkm, hjm, him]

theorem tripleOfIndex_decode (d t : ℕ) (ht : t < d ^ 3) :
    t = (tripleOfIndex d t).1 * d ^ 2 + (tripleOfIndex d t).2.1 * d +
      (tripleOfIndex d t).2.2 := by
  have hd : 0 < d := by
    rcases Nat.eq_zero_or_pos d with rfl | hd
    · simp at ht
    · exact hd
  have hdd : 0 < d ^ 2 := by positivity
  have hlt : t / d ^ 2 < d := by
    rw [Nat.div_lt_iff_lt_mul hdd]
    have e : d * d ^ 2 = d ^ 3 := by ring
    omega
  have hi : t / d ^ 2 % d = t / d ^ 2 := Nat.mod_eq_of_lt hlt
  have e1 : d * (t / d) + t % d = t := Nat.div_add_mod t d
  have e2 : d * (t / d / d) + t / d % d = t / d := Nat.div_add_mod (t / d) d
  have e3 : t / d / d = t / d ^ 2 := by
    rw [Nat.div_div_eq_div_mul]
    congr 1
    ring
  rw [e3] at e2
  simp only [tripleOfIndex, hi]
  calc t = d * (t / d) + t % d := e1.symm
  _ = d * (d * (t / d ^ 2) + t / d % d) + t % d := by rw [e2]
  _ = t / d ^ 2 * d ^ 2 + t / d % d * d + t % d := by ring

theorem matInv_ok_elim (m mI : List (List Expr)) (h : matInv m = Except.ok mI) :
    isSquare m = true ∧ det m ≠ Expr.const 0 ∧
      mI = (List.range m.length).map (fun i =>
        (List.range m.length).map (fun j => matInvEntry m (det m) i j)) := by
  unfold matInv at h
  split_ifs at h with hsq hdet
  exact ⟨hsq, hdet, by simpa using h.symm⟩

theorem matInv_ok_shape (m mI : List (List Expr)) (h : matInv m = Except.ok mI) :
    mI.length = m.length ∧ ∀ r ∈ mI, r.length = m.length := by
  obtain ⟨-, -, rfl⟩ := matInv_ok_elim m mI h
  refine ⟨by simp, ?_⟩
  intro r hr
  obtain ⟨i, hi, rfl⟩ := List.mem_map.mp hr
  simp

theorem matInv_ok_rows (m mI : List (List Expr)) (h : matInv m = Except.ok mI) :
    ∀ r ∈ m, r.length = m.length := by
  obtain ⟨hsq, -, -⟩ := matInv_ok_elim m mI h
  intro r hr
  have := (List.all_eq_true.mp hsq) r hr
  simpa using this

theorem christTermG_ok (K : Kernel) (l2 mI : List (List Expr)) (syms : List ℕ)
    (d i j k n : ℕ) (hl2 : Sq l2 d) (hmI : Sq mI d) (hsy : d ≤ syms.length)
    (hi : i < d) (hj : j < d) (hk : k < d) (hn : n < d) :
    christTermG K l2 mI syms i j k n = Except.ok (termPureG K l2 mI syms i j k n) := by
  obtain ⟨hmIl, hmIr⟩ := hmI
  obtain ⟨hl2l, hl2r⟩ := hl2
  have h1 : i < mI.length := by omega
  have h2 : n < (mI.getD i []).length := by
    have := hmIr (mI.getD i [])
      (by rw [List.getD_eq_getElem mI [] h1]; exact List.getElem_mem h1)
    omega
  have h3 : n < l2.length := by omega
  have h4 : j < (l2.getD n []).length := by
    have := hl2r (l2.getD n [])
      (by rw [List.getD_eq_getElem l2 [] h3]; exact List.getElem_mem h3)
    omega
  have h5 : k < (l2.getD n []).length := by
    have := hl2r (l2.getD n [])
      (by rw [List.getD_eq_getElem l2 [] h3]; exact List.getElem_mem h3)
    omega
  have h6 : j < l2.length := by omega
  have h7 : k < (l2.getD j []).length := by
    have := hl2r (l2.getD j [])
      (by rw [List.getD_eq_getElem l2 [] h6]; exact List.getElem_mem h6)
    omega
  have h8 : k < syms.length := by omega
  have h9 : j < syms.length := by omega
  have h10 : n < syms.length := by omega
  simp only [christTermG, getE_ok mI i [] h1, getE_ok (mI.getD i []) n (Expr.const 0) h2,
    getE_ok l2 n [] h3, getE_ok (l2.getD n []) j (Expr.const 0) h4,
    getE_ok (l2.getD n []) k (Expr.const 0) h5, getE_ok l2 j [] h6,
    getE_ok (l2.getD j []) k (Expr.const 0) h7, getE_ok syms k 0 h8,
    getE_ok syms j 0 h9, getE_ok syms n 0 h10, bind, Except.bind, pure, Except.pure,
    termPureG, getD2]

theorem christSumG_ok (K : Kernel) (l2 mI : List (List Expr)) (syms : List ℕ)
    (d i j k : ℕ) (hl2 : Sq l2 d) (hmI : Sq mI d) (hsy : d ≤ syms.length)
    (hi : i < d) (hj : j < d) (hk : k < d) :
    ∀ (ns : List ℕ) (acc : Expr), (∀ n ∈ ns, n < d) →
      christSumG K l2 mI syms i j k acc ns =
        Except.ok (ns.foldl
          (fun a n => Expr.addE a (termPureG K l2 mI syms i j k n)) acc) := by
  intro ns
  induction ns with
  | nil => intro acc _; rfl
  | cons n ns ih =>
    intro acc h
    have hn : n < d := h n (by simp)
    simp only [christSumG,
      christTermG_ok K l2 mI syms d i j k n hl2 hmI hsy hi hj hk hn,
      bind, Except.bind, List.foldl_cons]
    exact ih _ (fun x hx => h x (by simp [hx]))

theorem christLoopG_ok (K : Kernel) (l2 mI : List (List Expr)) (syms : List ℕ)
    (d : ℕ) (hl2 : Sq l2 d) (hmI : Sq mI d) (hsy : d ≤ syms.length) :
    ∀ (ts : List ℕ) (cl : Tensor3),
      (∀ t ∈ ts, (tripleOfIndex d t).1 < d ∧ (tripleOfIndex d t).2.1 < d ∧
        (tripleOfIndex d t).2.2 < d) →
      christLoopG K l2 mI syms d cl ts =
        Except.ok (christLoopPureG K l2 mI syms d cl ts) := by
  intro ts
  induction ts with
  | nil => intro cl _; rfl
  | cons t ts ih =>
    intro cl h
    obtain ⟨h1, h2, h3⟩ := h t (by simp)
    simp only [christLoopG, christLoopPureG, christEntryG]
    rw [christSumG_ok K l2 mI syms d (tripleOfIndex d t).1 (tripleOfIndex d t).2.1
      (tripleOfIndex d t).2.2 hl2 hmI hsy h1 h2 h3 (List.range d) (Expr.const 0)
      (fun n hn => List.mem_range.mp hn)]
    simp only [bind, Except.bind]
    exact ih _ (fun x hx => h x (by simp [hx]))

theorem shape3_christLoopPureG (K : Kernel) (l2 mI : List (List Expr))
    (syms : List ℕ) (d : ℕ) :
    ∀ (ts : List ℕ) (cl : Tensor3), shape3 cl d →
      (∀ t ∈ ts, (tripleOfIndex d t).1 < d ∧ (tripleOfIndex d t).2.1 < d ∧
        (tripleOfIndex d t).2.2 < d) →
      shape3 (christLoopPureG K l2 mI syms d cl ts) d := by
  intro ts
  induction ts with
  | nil => intro cl hcl _; exact hcl
  | cons t ts ih =>
    intro cl hcl h
    obtain ⟨h1, h2, h3⟩ := h t (by simp)
    simp only [christLoopPureG]
    exact ih _ (shape3_set3 _ _ _ _ _ _ hcl h1 h2 h3) (fun x hx => h x (by simp [hx]))

theorem get3_christLoopPureG (K : Kernel) (l2 mI : List (List Expr))
    (syms : List ℕ) (d : ℕ) :
    ∀ (ts : List ℕ) (cl : Tensor3), shape3 cl d →
      (∀ t ∈ ts, (tripleOfIndex d t).1 < d ∧ (tripleOfIndex d t).2.1 < d ∧
        (tripleOfIndex d t).2.2 < d) →
      ∀ i j k, i < d → j < d → k < d →
        get3 (christLoopPureG K l2 mI syms d cl ts) i j k =
          if (i, j, k) ∈ ts.map (tripleOfIndex d)
          then K.kconv (christEntryG K l2 mI syms d i j k)
          else get3 cl i j k := by
  intro ts
  induction ts with
  | nil => intro cl hcl _ i j k hi hj hk; simp [christLoopPureG]
  | cons t ts ih =>
    intro cl hcl hb i j k hi hj hk
    have hbt := hb t (by simp)
    simp only [christLoopPureG, List.map_cons, List.mem_cons]
    rcases ht : tripleOfIndex d t with ⟨a, b, c⟩
    rw [ht] at hbt
    simp only at hbt
    obtain ⟨ha, hb2, hc⟩ := hbt
    rw [ih _ (shape3_set3 _ _ _ _ _ _ hcl ha hb2 hc)
      (fun x hx => hb x (by simp [hx])) i j k hi hj hk]
    by_cases hmem : (i, j, k) ∈ ts.map (tripleOfIndex d)
    · rw [if_pos hmem, if_pos (Or.inr hmem)]
    · rw [if_neg hmem]
      by_cases heq : (a, b, c) = ((i, j, k) : ℕ × ℕ × ℕ)
      · obtain ⟨rfl, rfl, rfl⟩ : a = i ∧ b = j ∧ c = k := by
          simpa [Prod.ext_iff] using heq
        rw [if_pos (Or.inl rfl)]
        exact get3_set3_self cl d _ _ _ _ hcl hi hj hk
      · rw [if_neg (by simp only [not_or]; exact ⟨fun hcon => heq hcon.symm, hmem⟩)]
        refine get3_set3_ne cl d a b c i j k _ hcl ha hb2 hc ?_
        intro hcon
        exact heq (by simp [Prod.ext_iff, hcon.1, hcon.2.1, hcon.2.2])

theorem christoffelsG_spec (K : Kernel) (l2 : List (List Expr)) (syms : List ℕ)
    (mI : List (List Expr)) (hInv : matInv l2 = Except.ok mI)
    (hl2 : Sq l2 syms.length) :
    ∃ T, christoffelsG K l2 syms = Except.ok T ∧ shape3 T syms.length ∧
      ∀ i j k, i < syms.length → j < syms.length → k < syms.length →
        get3 T i j k = K.kconv (christEntryG K l2 mI syms syms.length i j k) := by
  have hmI : Sq mI syms.length := by
    obtain ⟨hl, hr⟩ := matInv_ok_shape l2 mI hInv
    obtain ⟨ha, hb⟩ := hl2
    exact ⟨by omega, fun r hrm => by rw [hr r hrm]; omega⟩
  have hb : ∀ t ∈ List.range (syms.length ^ 3),
      (tripleOfIndex syms.length t).1 < syms.length ∧
      (tripleOfIndex syms.length t).2.1 < syms.length ∧
      (tripleOfIndex syms.length t).2.2 < syms.length := by
    intro t ht
    have hd : 0 < syms.length := by
      by_contra h0
      push_neg at h0
      have h00 : syms.length = 0 := by omega
      rw [h00] at ht
      simp at ht
    exact tripleOfIndex_lt _ _ hd
  refine ⟨christLoopPureG K l2 mI syms syms.length (zeros3 syms.length)
    (List.range (syms.length ^ 3)), ?_, ?_, ?_⟩
  · unfold christoffelsG
    rw [hInv]
    simp only [bind, Except.bind]
    exact christLoopG_ok K l2 mI syms _ hl2 hmI (le_refl _) _ _ hb
  · exact shape3_christLoopPureG K l2 mI syms _ _ _ (shape3_zeros3 _) hb
  · intro i j k hi hj hk
    rw [get3_christLoopPureG K l2 mI syms _ _ _ (shape3_zeros3 _) hb i j k hi hj hk]
    obtain ⟨hbound, htrip⟩ := tripleOfIndex_encode _ i j k hi hj hk
    rw [if_pos (List.mem_map.mpr ⟨_, List.mem_range.mpr hbound, htrip⟩)]

theorem christSumG_append (K : Kernel) (l2 mI : List (List Expr)) (syms : List ℕ)
    (i j k : ℕ) :
    ∀ (ns1 ns2 : List ℕ) (acc : Expr),
      christSumG K l2 mI syms i j k acc (ns1 ++ ns2) =
        Except.bind (christSumG K l2 mI syms i j k acc ns1)
          (fun a => christSumG K l2 mI syms i j k a ns2) := by
  intro ns1
  induction ns1 with
  | nil => intro ns2 acc; rfl
  | cons n ns1 ih =>
    intro ns2 acc
    simp only [List.cons_append, christSumG, bind]
    cases christTermG K l2 mI syms i j k n with
    | error e => rfl
    | ok t => exact ih ns2 (Expr.addE acc t)

theorem christSumG_oob (K : Kernel) (l2 mI : List (List Expr)) (syms : List ℕ)
    (d : ℕ) (hlt : l2.length < d) (hsy : d ≤ syms.length)
    (hmIl : mI.length = l2.length) (hmIr : ∀ r ∈ mI, r.length = l2.length)
    (hl2r : ∀ r ∈ l2, r.length = l2.length) :
    christSumG K l2 mI syms 0 0 0 (Expr.const 0) (List.range d) =
      Except.error PyErr.indexError := by
  rcases Nat.eq_zero_or_pos l2.length with hs0 | hs1
  · -- empty metric: the very first access to the inverse fails
    obtain ⟨m, hm⟩ : ∃ m, d = m + 1 := ⟨d - 1, by omega⟩
    rw [hm, List.range_succ_eq_map]
    simp only [christSumG, christTermG,
      getE_err mI 0 (by omega), bind, Except.bind]
  · -- the first out-of-range column access is at n = l2.length
    have hsplit : d = l2.length + (d - l2.length) := by omega
    rw [hsplit, List.range_add, christSumG_append]
    have hsq0 : Sq l2 l2.length := ⟨le_refl _, fun r hr => le_of_eq (hl2r r hr).symm⟩
    have hmI0 : Sq mI l2.length := ⟨by omega, fun r hr => le_of_eq (hmIr r hr).symm⟩
    rw [christSumG_ok K l2 mI syms l2.length 0 0 0 hsq0 hmI0 (by omega) hs1 hs1 hs1
      (List.range l2.length) (Expr.const 0) (fun n hn => List.mem_range.mp hn)]
    simp only [bind, Except.bind]
    obtain ⟨m, hm⟩ : ∃ m, d - l2.length = m + 1 := ⟨d - l2.length - 1, by omega⟩
    rw [hm, List.range_succ_eq_map]
    simp only [List.map_cons, christSumG, christTermG]
    have h1 : 0 < mI.length := by omega
    have h2 : (mI.getD 0 []).length ≤ l2.length + 0 := by
      have := hmIr (mI.getD 0 [])
        (by rw [List.getD_eq_getElem mI [] h1]; exact List.getElem_mem h1)
      omega
    rw [getE_ok mI 0 [] h1]
    simp only [bind, Except.bind]
    rw [getE_err (mI.getD 0 []) (l2.length + 0) h2]

theorem tripleOfIndex_zero (d : ℕ) : tripleOfIndex d 0 = (0, 0, 0) := by
  simp [tripleOfIndex]

theorem christoffelsG_truncation (K : Kernel) (l2 : List (List Expr)) (syms : List ℕ)
    (mI : List (List Expr)) (hInv : matInv l2 = Except.ok mI)
    (hlt : l2.length < syms.length) :
    christoffelsG K l2 syms = Except.error PyErr.indexError := by
  have hd : 0 < syms.length := by omega
  obtain ⟨m, hm⟩ : ∃ m, syms.length ^ 3 = m + 1 :=
    ⟨syms.length ^ 3 - 1, by have := Nat.pos_pow_of_pos 3 hd; omega⟩
  unfold christoffelsG
  rw [hInv]
  simp only [bind, Except.bind]
  rw [hm, List.range_succ_eq_map]
  simp only [christLoopG, tripleOfIndex_zero]
  obtain ⟨hmIl, hmIr⟩ := matInv_ok_shape l2 mI hInv
  rw [christSumG_oob K l2 mI syms syms.length hlt (le_refl _) hmIl hmIr
    (matInv_ok_rows l2 mI hInv)]
  rfl

theorem christoffelsG_ok_inversion (K : Kernel) (l2 : List (List Expr))
    (syms : List ℕ) (T : Tensor3) (h : christoffelsG K l2 syms = Except.ok T) :
    ∃ mI, matInv l2 = Except.ok mI ∧ Sq l2 syms.length := by
  cases hInv : matInv l2 with
  | error e =>
    rw [christoffelsG, hInv] at h
    simp [bind, Except.bind] at h
  | ok mI =>
    refine ⟨mI, rfl, ?_⟩
    have hrows := matInv_ok_rows l2 mI hInv
    by_cases hle : syms.length ≤ l2.length
    · exact ⟨hle, fun r hr => by rw [hrows r hr]; omega⟩
    · exfalso
      push_neg at hle
      rw [christoffelsG_truncation K l2 syms mI hInv hle] at h
      simp at h

theorem christoffelsG_ok_elim (K : Kernel) (l2 : List (List Expr)) (syms : List ℕ)
    (T : Tensor3) (h : christoffelsG K l2 syms = Except.ok T) :
    shape3 T syms.length ∧ ∃ mI, matInv l2 = Except.ok mI ∧
      ∀ i j k, i < syms.length → j < syms.length → k < syms.length →
        get3 T i j k = K.kconv (christEntryG K l2 mI syms syms.length i j k) := by
  obtain ⟨mI, hInv, hSq⟩ := christoffelsG_ok_inversion K l2 syms T h
  obtain ⟨T2, hT2, hshape, hentries⟩ := christoffelsG_spec K l2 syms mI hInv hSq
  have he : T2 = T := by
    rw [h] at hT2
    exact (Except.ok.inj hT2).symm
  subst he
  exact ⟨hshape, mI, hInv, hentries⟩

theorem eval_foldl_addE (v : ℕ → ℝ) (f : ℕ → Expr) :
    ∀ (ns : List ℕ) (acc : Expr),
      Expr.eval v (ns.foldl (fun a n => Expr.addE a (f n)) acc) =
        Expr.eval v acc + ((ns.map (fun n => Expr.eval v (f n))).sum) := by
  intro ns
  induction ns with
  | nil => intro acc; simp
  | cons n ns ih =>
    intro acc
    rw [List.foldl_cons, ih (Expr.addE acc (f n)), Expr.eval_addE]
    rw [List.map_cons, List.sum_cons]
    ring

theorem eval_christEntryG (v : ℕ → ℝ) (K : Kernel) (l2 mI : List (List Expr))
    (syms : List ℕ) (d i j k : ℕ) :
    Expr.eval v (christEntryG K l2 mI syms d i j k) =
      ((List.range d).map
        (fun n => Expr.eval v (termPureG K l2 mI syms i j k n))).sum := by
  unfold christEntryG
  rw [eval_foldl_addE v (fun n => termPureG K l2 mI syms i j k n)]
  simp [Expr.eval]

theorem eval_termPureG_kernel (v : ℕ → ℝ) (l2 mI : List (List Expr))
    (syms : List ℕ) (i j k n : ℕ) :
    Expr.eval v (termPureG symengineKernel l2 mI syms i j k n) =
      Expr.eval v (termPureG sympyKernel l2 mI syms i j k n) := by
  simp [termPureG, sympyKernel, symengineKernel, Expr.eval_diffB]

theorem foldl_addE_zero (f : ℕ → Expr) :
    ∀ (ns : List ℕ), (∀ n ∈ ns, f n = Expr.const 0) →
      ns.foldl (fun a n => Expr.addE a (f n)) (Expr.const 0) = Expr.const 0 := by
  intro ns
  induction ns with
  | nil => intro _; rfl
  | cons n ns ih =>
    intro h
    rw [List.foldl_cons, h n (by simp), addE_zero_right]
    exact ih (fun x hx => h x (by simp [hx]))

theorem getD2_allconst (m : List (List Expr))
    (h : ∀ r ∈ m, ∀ e ∈ r, ∃ q : ℤ, e = Expr.const q) (a b : ℕ) :
    ∃ q : ℤ, getD2 m a b = Expr.const q := by
  unfold getD2
  by_cases ha : a < m.length
  · rw [List.getD_eq_getElem m [] ha]
    by_cases hb : b < m[a].length
    · rw [List.getD_eq_getElem m[a] (Expr.const 0) hb]
      exact h m[a] (List.getElem_mem ha) _ (List.getElem_mem hb)
    · rw [List.getD_eq_default m[a] (Expr.const 0) (Nat.le_of_not_lt hb)]
      exact ⟨0, rfl⟩
  · rw [List.getD_eq_default m [] (Nat.le_of_not_lt ha)]
    exact ⟨0, List.getD_eq_default [] (Expr.const 0) (by simp)⟩

theorem idMetric_allconst : ∀ n : ℕ, ∀ r ∈ idMetric n, ∀ e ∈ r,
    ∃ q : ℤ, e = Expr.const q := by
  intro n
  induction n with
  | zero => intro r hr; simp [idMetric] at hr
  | succ n ih =>
    intro r hr
    rcases List.mem_cons.mp hr with rfl | hr
    · intro e he
      rcases List.mem_cons.mp he with rfl | he
      · exact ⟨1, rfl⟩
      · exact ⟨0, List.eq_of_mem_replicate he⟩
    · obtain ⟨r0, hr0, rfl⟩ := List.mem_map.mp hr
      intro e he
      rcases List.mem_cons.mp he with rfl | he
      · exact ⟨0, rfl⟩
      · exact ih r0 hr0 e he

theorem termPureG_sympy_const (l2 mI : List (List Expr)) (syms : List ℕ)
    (i j k n : ℕ) (hc : ∀ a b, ∃ q : ℤ, getD2 l2 a b = Expr.const q) :
    termPureG sympyKernel l2 mI syms i j k n = Expr.const 0 := by
  obtain ⟨q1, e1⟩ := hc n j
  obtain ⟨q2, e2⟩ := hc n k
  obtain ⟨q3, e3⟩ := hc j k
  simp only [termPureG, sympyKernel, e1, e2, e3]
  simp [Expr.diff, Expr.addE, Expr.negE, Expr.subE, mulE_zero_right]

theorem matInv_idMetric (n : ℕ) :
    ∃ mI, matInv (idMetric n) = Except.ok mI := by
  have hsq : isSquare (idMetric n) = true := by
    rw [isSquare, List.all_eq_true]
    intro r hr
    simp [idMetric_rows n r hr, idMetric_length]
  have hdet : ¬(det (idMetric n) = Expr.const 0) := by
    rw [det_idMetric]
    simp
  exact ⟨_, by unfold matInv; rw [if_pos hsq, if_neg hdet]⟩

theorem get3_oob (T : Tensor3) (d i j k : ℕ) (h : shape3 T d)
    (hoob : ¬(i < d ∧ j < d ∧ k < d)) : get3 T i j k = Expr.const 0 := by
  obtain ⟨h1, h2⟩ := h
  unfold get3
  by_cases hi : i < d
  · have hi' : i < T.length := by omega
    rw [List.getD_eq_getElem T [] hi']
    obtain ⟨hrl, hrr⟩ := h2 T[i] (List.getElem_mem hi')
    by_cases hj : j < d
    · have hj' : j < T[i].length := by omega
      rw [List.getD_eq_getElem T[i] [] hj']
      have hsl := hrr (T[i])[j] (List.getElem_mem hj')
      have hk : ¬(k < d) := by tauto
      rw [List.getD_eq_default (T[i])[j] (Expr.const 0) (by omega)]
    · rw [List.getD_eq_default T[i] [] (by omega)]
      exact List.getD_eq_default [] (Expr.const 0) (by simp)
  · rw [List.getD_eq_default T [] (by omega)]
    exact List.getD_eq_default [] (Expr.const 0) (by simp)


theorem sympyKernel_kconv (e : Expr) : sympyKernel.kconv e = e := rfl

theorem symengineKernel_kconv (e : Expr) : symengineKernel.kconv e = e := rfl

/-- C9: the timing wrapper returns the wrapped computation result unchanged
for every wrapped function, argument and ambient state, and when the wrapped
computation raises, the exception reaches the caller unmodified. -/
theorem claim_C9_timeit_transparent {α β : Type} (name : String)
    (func : α → Comp β) (a : α) (w : World) :
    (Bench.timeit name func a w).2 = (func a w).2 := by
  unfold Bench.timeit
  rcases hfw : func a w with ⟨w1, r⟩
  cases r <;> simp [hfw]

/-- C8: the linear-index decomposition `k = t % dims`,
`j = t / dims % dims`, `i = t / dims ^ 2 % dims` used by both engines stays
inside `[0, dims)` in each coordinate, and every ordered triple with
coordinates below `dims` is hit by exactly one counter value
`t < dims ^ 3`: no omission and no duplication. -/
theorem claim_C8_enumeration (dims : ℕ) :
    (∀ t, t < dims ^ 3 → (tripleOfIndex dims t).1 < dims ∧
      (tripleOfIndex dims t).2.1 < dims ∧ (tripleOfIndex dims t).2.2 < dims) ∧
    (∀ i j k, i < dims → j < dims → k < dims →
      ∃! t, t < dims ^ 3 ∧ tripleOfIndex dims t = (i, j, k)) := by
  constructor
  · intro t ht
    have hd : 0 < dims := by
      rcases Nat.eq_zero_or_pos dims with rfl | hd
      · simp at ht
      · exact hd
    exact tripleOfIndex_lt _ _ hd
  · intro i j k hi hj hk
    obtain ⟨hb, he⟩ := tripleOfIndex_encode dims i j k hi hj hk
    refine ⟨i * dims ^ 2 + j * dims + k, ⟨hb, he⟩, ?_⟩
    rintro t2 ⟨ht2, htrip⟩
    have hdec := tripleOfIndex_decode dims t2 ht2
    rw [htrip] at hdec
    simpa using hdec

/-- Witness for C8 at a concrete dimension and triple. -/
theorem claim_C8_enumeration_witness :
    ∃! t, t < 2 ^ 3 ∧ tripleOfIndex 2 t = (1, 0, 1) :=
  (claim_C8_enumeration 2).2 1 0 1 (by norm_num) (by norm_num) (by norm_num)

/-- C7: a square metric with an all-zero row makes the inversion step fail,
and both engines surface the singular-matrix error to the caller with no
partial result. -/
theorem claim_C7_singular_rejection (l2 : List (List Expr)) (syms : List ℕ)
    (hsq : isSquare l2 = true) (hz : ∃ r ∈ l2, ∀ e ∈ r, e = Expr.const 0) :
    christoffels_reference l2 syms = Except.error PyErr.nonInvertible ∧
      christoffels_symengine l2 syms = Except.error PyErr.nonInvertible := by
  have hmat : matInv l2 = Except.error PyErr.nonInvertible := by
    unfold matInv
    rw [if_pos hsq, if_pos (det_zero_row l2 hz)]
  constructor
  · unfold christoffels_reference christoffelsG
    rw [hmat]
    rfl
  · unfold christoffels_symengine christoffelsG
    rw [hmat]
    rfl

/-- Witness for C7 at the concrete all-zero 1 x 1 metric. -/
theorem claim_C7_singular_rejection_witness :
    isSquare [[Expr.const 0]] = true ∧
      christoffels_reference [[Expr.const 0]] [0] =
        Except.error PyErr.nonInvertible ∧
      christoffels_symengine [[Expr.const 0]] [0] =
        Except.error PyErr.nonInvertible :=
  ⟨rfl, claim_C7_singular_rejection [[Expr.const 0]] [0] rfl
    ⟨[Expr.const 0], by simp, fun e he => by simpa using he⟩⟩

/-- C5: for the identity metric in any dimension `dims = len(symbols) ≥ 1`,
the reference engine succeeds and every entry of the returned tensor is
exactly the zero expression. -/
theorem claim_C5_flat_space_zero (syms : List ℕ) (hpos : 1 ≤ syms.length) :
    ∃ T, christoffels_reference (idMetric syms.length) syms = Except.ok T ∧
      ∀ i j k : ℕ, get3 T i j k = Expr.const 0 := by
  obtain ⟨mI, hInv⟩ := matInv_idMetric syms.length
  have hSq : Sq (idMetric syms.length) syms.length :=
    ⟨le_of_eq (idMetric_length _).symm,
     fun r hr => le_of_eq (idMetric_rows _ r hr).symm⟩
  obtain ⟨T, hT, hsh, hent⟩ := christoffelsG_spec sympyKernel _ syms mI hInv hSq
  refine ⟨T, hT, ?_⟩
  intro i j k
  by_cases hin : i < syms.length ∧ j < syms.length ∧ k < syms.length
  · obtain ⟨hi, hj, hk⟩ := hin
    rw [hent i j k hi hj hk, sympyKernel_kconv]
    unfold christEntryG
    exact foldl_addE_zero _ _ (fun n _ => termPureG_sympy_const _ mI syms i j k n
      (getD2_allconst _ (idMetric_allconst _)))
  · exact get3_oob T syms.length i j k hsh hin

/-- Witness for C5 at two symbols. -/
theorem claim_C5_flat_space_zero_witness :
    1 ≤ ([5, 7] : List ℕ).length ∧
      ∃ T, christoffels_reference (idMetric 2) [5, 7] = Except.ok T ∧
        ∀ i j k : ℕ, get3 T i j k = Expr.const 0 :=
  ⟨by norm_num, claim_C5_flat_space_zero [5, 7] (by norm_num)⟩

/-- C6 counterexample: calling the reference engine with a 2 x 2 metric and a
single coordinate symbol does not fail with a shape-mismatch error; it
silently succeeds and returns a 1 x 1 x 1 tensor truncated relative to the
metric. -/
theorem claim_C6_counterexample :
    christoffels_reference [[Expr.const 1, Expr.const 0],
      [Expr.const 0, Expr.const 1]] [0] = Except.ok [[[Expr.const 0]]] := by
  rfl

/-- C6 amended: neither engine validates the symbol count against the metric
dimension.  With at most as many symbols as metric rows the call silently
succeeds with a fully assigned `len(symbols)` cubed tensor, and with more
symbols than metric rows it fails with an index error raised from an
element access inside the loop, after the inversion has already run. -/
theorem claim_C6_no_shape_validation :
    (∀ (l2 : List (List Expr)) (syms : List ℕ) (mI : List (List Expr)),
      matInv l2 = Except.ok mI → syms.length ≤ l2.length →
      (∃ T, christoffels_reference l2 syms = Except.ok T ∧
        shape3 T syms.length) ∧
      (∃ T, christoffels_symengine l2 syms = Except.ok T ∧
        shape3 T syms.length)) ∧
    (∀ (l2 : List (List Expr)) (syms : List ℕ) (mI : List (List Expr)),
      matInv l2 = Except.ok mI → l2.length < syms.length →
      christoffels_reference l2 syms = Except.error PyErr.indexError ∧
      christoffels_symengine l2 syms = Except.error PyErr.indexError) := by
  constructor
  · intro l2 syms mI hInv hle
    have hSq : Sq l2 syms.length :=
      ⟨hle, fun r hr => by rw [matInv_ok_rows l2 mI hInv r hr]; omega⟩
    obtain ⟨Tr, hTr, hshr, -⟩ :=
      christoffelsG_spec sympyKernel l2 syms mI hInv hSq
    obtain ⟨Ts, hTs, hshs, -⟩ :=
      christoffelsG_spec symengineKernel l2 syms mI hInv hSq
    exact ⟨⟨Tr, hTr, hshr⟩, ⟨Ts, hTs, hshs⟩⟩
  · intro l2 syms mI hInv hlt
    exact ⟨christoffelsG_truncation sympyKernel l2 syms mI hInv hlt,
      christoffelsG_truncation symengineKernel l2 syms mI hInv hlt⟩

/-- Witness for the amended C6: a 2 x 2 identity metric with one symbol
silently succeeds on both engines, and a 1 x 1 metric with two symbols
raises an index error on both engines. -/
theorem claim_C6_no_shape_validation_witness :
    ((∃ T, christoffels_reference [[Expr.const 1, Expr.const 0],
        [Expr.const 0, Expr.const 1]] [0] = Except.ok T ∧ shape3 T 1) ∧
     (∃ T, christoffels_symengine [[Expr.const 1, Expr.const 0],
        [Expr.const 0, Expr.const 1]] [0] = Except.ok T ∧ shape3 T 1)) ∧
      (christoffels_reference [[Expr.const 1]] [0, 1] =
        Except.error PyErr.indexError ∧
       christoffels_symengine [[Expr.const 1]] [0, 1] =
        Except.error PyErr.indexError) :=
  ⟨claim_C6_no_shape_validation.1 [[Expr.const 1, Expr.const 0],
      [Expr.const 0, Expr.const 1]] [0]
      [[Expr.inv (Expr.const 1), Expr.const 0],
       [Expr.const 0, Expr.inv (Expr.const 1)]] rfl (by norm_num),
   claim_C6_no_shape_validation.2 [[Expr.const 1]] [0, 1]
      [[Expr.inv (Expr.const 1)]] rfl (by norm_num)⟩

/-- C10: whenever an engine returns a tensor at all, the tensor has exact
shape `len(symbols)` cubed (the dimension comes from the symbol list, never
from the metric), and every entry was assigned by the loop: it equals the
computed inner-loop value for its triple, not the allocation placeholder. -/
theorem claim_C10_shape_and_assignment :
    (∀ (l2 : List (List Expr)) (syms : List ℕ) (T : Tensor3),
      christoffels_reference l2 syms = Except.ok T →
      shape3 T syms.length ∧ ∃ mI, matInv l2 = Except.ok mI ∧
        ∀ i j k, i < syms.length → j < syms.length → k < syms.length →
          get3 T i j k = christEntryG sympyKernel l2 mI syms syms.length i j k) ∧
    (∀ (l2 : List (List Expr)) (syms : List ℕ) (T : Tensor3),
      christoffels_symengine l2 syms = Except.ok T →
      shape3 T syms.length ∧ ∃ mI, matInv l2 = Except.ok mI ∧
        ∀ i j k, i < syms.length → j < syms.length → k < syms.length →
          get3 T i j k =
            sympyS (christEntryG symengineKernel l2 mI syms syms.length i j k)) := by
  constructor
  · intro l2 syms T h
    obtain ⟨hsh, mI, hInv, hent⟩ := christoffelsG_ok_elim sympyKernel l2 syms T h
    exact ⟨hsh, mI, hInv, hent⟩
  · intro l2 syms T h
    obtain ⟨hsh, mI, hInv, hent⟩ := christoffelsG_ok_elim symengineKernel l2 syms T h
    exact ⟨hsh, mI, hInv, hent⟩

/-- Witness for C10 on the 1 x 1 metric. -/
theorem claim_C10_shape_and_assignment_witness :
    shape3 [[[Expr.const 0]]] 1 ∧ ∃ mI, matInv [[Expr.const 1]] = Except.ok mI ∧
      ∀ i j k, i < 1 → j < 1 → k < 1 →
        get3 [[[Expr.const 0]]] i j k =
          christEntryG sympyKernel [[Expr.const 1]] mI [0] 1 i j k :=
  claim_C10_shape_and_assignment.1 [[Expr.const 1]] [0] [[[Expr.const 0]]] rfl

theorem eval_termPureG_sympy (v : ℕ → ℝ) (l2 mI : List (List Expr))
    (syms : List ℕ) (i j k n : ℕ) :
    Expr.eval v (termPureG sympyKernel l2 mI syms i j k n) =
      Expr.eval v (getD2 mI i n) / 2 *
        (Expr.eval v (Expr.diff (syms.getD k 0) (getD2 l2 n j)) +
         Expr.eval v (Expr.diff (syms.getD j 0) (getD2 l2 n k)) -
         Expr.eval v (Expr.diff (syms.getD n 0) (getD2 l2 j k))) := by
  simp [termPureG, sympyKernel, Expr.eval]

theorem eval_christEntryG_swap (K : Kernel) (v : ℕ → ℝ)
    (l2 mI : List (List Expr)) (syms : List ℕ) (d i j k : ℕ)
    (hjk : getD2 l2 j k = getD2 l2 k j) :
    Expr.eval v (christEntryG K l2 mI syms d i j k) =
      Expr.eval v (christEntryG K l2 mI syms d i k j) := by
  rw [eval_christEntryG, eval_christEntryG]
  congr 1
  apply List.map_congr_left
  intro n _
  simp only [termPureG, hjk, Expr.eval_mulE, Expr.eval_divE, Expr.eval_subE,
    Expr.eval_addE]
  ring

/-- C3: for a valid input (as many symbols as metric rows, invertible
metric), the reference engine succeeds and entry `(i, j, k)` of its output
has the mathematical value
`sum over n of inverse_metric[i][n] / 2 * (d metric[n][j] / d syms[k] + d metric[n][k] / d syms[j] - d metric[j][k] / d syms[n])`,
with the derivatives taken by the exact symbolic differentiation. -/
theorem claim_C3_reference_formula (l2 : List (List Expr)) (syms : List ℕ)
    (mI : List (List Expr)) (hInv : matInv l2 = Except.ok mI)
    (hlen : l2.length = syms.length) :
    ∃ T, christoffels_reference l2 syms = Except.ok T ∧
      ∀ i j k, i < syms.length → j < syms.length → k < syms.length →
        ∀ v : ℕ → ℝ, Expr.eval v (get3 T i j k) =
          ((List.range syms.length).map (fun n =>
            Expr.eval v (getD2 mI i n) / 2 *
              (Expr.eval v (Expr.diff (syms.getD k 0) (getD2 l2 n j)) +
               Expr.eval v (Expr.diff (syms.getD j 0) (getD2 l2 n k)) -
               Expr.eval v (Expr.diff (syms.getD n 0) (getD2 l2 j k))))).sum := by
  have hSq : Sq l2 syms.length :=
    ⟨le_of_eq hlen.symm, fun r hr => by rw [matInv_ok_rows l2 mI hInv r hr, hlen]⟩
  obtain ⟨T, hT, hsh, hent⟩ := christoffelsG_spec sympyKernel l2 syms mI hInv hSq
  refine ⟨T, hT, ?_⟩
  intro i j k hi hj hk v
  rw [hent i j k hi hj hk, sympyKernel_kconv, eval_christEntryG]
  congr 1
  apply List.map_congr_left
  intro n _
  exact eval_termPureG_sympy v l2 mI syms i j k n

/-- Witness for C3 on the 1 x 1 metric. -/
theorem claim_C3_reference_formula_witness :
    ∃ T, christoffels_reference [[Expr.const 1]] [0] = Except.ok T ∧
      ∀ i j k, i < 1 → j < 1 → k < 1 →
        ∀ v : ℕ → ℝ, Expr.eval v (get3 T i j k) =
          ((List.range 1).map (fun n =>
            Expr.eval v (getD2 [[Expr.inv (Expr.const 1)]] i n) / 2 *
              (Expr.eval v (Expr.diff (([0] : List ℕ).getD k 0)
                  (getD2 [[Expr.const 1]] n j)) +
               Expr.eval v (Expr.diff (([0] : List ℕ).getD j 0)
                  (getD2 [[Expr.const 1]] n k)) -
               Expr.eval v (Expr.diff (([0] : List ℕ).getD n 0)
                  (getD2 [[Expr.const 1]] j k))))).sum :=
  claim_C3_reference_formula [[Expr.const 1]] [0]
    [[Expr.inv (Expr.const 1)]] rfl (by norm_num)

/-- C4: for a (syntactically) symmetric metric, both engines return tensors
that are symmetric in the last two indices: entries `(i, j, k)` and
`(i, k, j)` are mathematically equal. -/
theorem claim_C4_symmetry (l2 : List (List Expr)) (syms : List ℕ)
    (hsym : ∀ a b, getD2 l2 a b = getD2 l2 b a) :
    (∀ T, christoffels_reference l2 syms = Except.ok T →
      ∀ (v : ℕ → ℝ) i j k, i < syms.length → j < syms.length → k < syms.length →
        Expr.eval v (get3 T i j k) = Expr.eval v (get3 T i k j)) ∧
    (∀ T, christoffels_symengine l2 syms = Except.ok T →
      ∀ (v : ℕ → ℝ) i j k, i < syms.length → j < syms.length → k < syms.length →
        Expr.eval v (get3 T i j k) = Expr.eval v (get3 T i k j)) := by
  constructor
  · intro T h v i j k hi hj hk
    obtain ⟨hsh, mI, hInv, hent⟩ := christoffelsG_ok_elim sympyKernel l2 syms T h
    rw [hent i j k hi hj hk, hent i k j hi hk hj,
      sympyKernel_kconv, sympyKernel_kconv]
    exact eval_christEntryG_swap _ v l2 mI syms _ i j k (hsym j k)
  · intro T h v i j k hi hj hk
    obtain ⟨hsh, mI, hInv, hent⟩ := christoffelsG_ok_elim symengineKernel l2 syms T h
    rw [hent i j k hi hj hk, hent i k j hi hk hj,
      symengineKernel_kconv, symengineKernel_kconv]
    exact eval_christEntryG_swap _ v l2 mI syms _ i j k (hsym j k)

/-- Witness for C4 on the 1 x 1 metric. -/
theorem claim_C4_symmetry_witness :
    Expr.eval (fun _ => 0) (get3 [[[Expr.const 0]]] 0 0 0) =
      Expr.eval (fun _ => 0) (get3 [[[Expr.const 0]]] 0 0 0) :=
  (claim_C4_symmetry [[Expr.const 1]] [0]
    (fun a b => by cases a <;> cases b <;> simp [getD2])).1
    [[[Expr.const 0]]] rfl (fun _ => 0) 0 0 0 (by norm_num) (by norm_num)
    (by norm_num)

/-- C1: on every input where both engines succeed, the two returned tensors
are entry-wise mathematically equal after the per-entry conversion of the
fast-kernel result to the canonical representation. -/
theorem claim_C1_backend_equivalence (l2 : List (List Expr)) (syms : List ℕ)
    (Tr Ts : Tensor3)
    (hr : christoffels_reference l2 syms = Except.ok Tr)
    (hs : christoffels_symengine l2 syms = Except.ok Ts) :
    ∀ i j k, i < syms.length → j < syms.length → k < syms.length →
      ∀ v : ℕ → ℝ, Expr.eval v (get3 Tr i j k) = Expr.eval v (get3 Ts i j k) := by
  obtain ⟨hshr, mIr, hInvr, her⟩ := christoffelsG_ok_elim sympyKernel l2 syms Tr hr
  obtain ⟨hshs, mIs, hInvs, hes⟩ := christoffelsG_ok_elim symengineKernel l2 syms Ts hs
  have hmm : mIs = mIr := by
    rw [hInvr] at hInvs
    exact (Except.ok.inj hInvs).symm
  intro i j k hi hj hk v
  rw [her i j k hi hj hk, hes i j k hi hj hk, sympyKernel_kconv,
    symengineKernel_kconv, hmm, eval_christEntryG, eval_christEntryG]
  congr 1
  apply List.map_congr_left
  intro n _
  exact (eval_termPureG_kernel v l2 mIr syms i j k n).symm

/-- Witness for C1 on the 1 x 1 metric, where both engines succeed. -/
theorem claim_C1_backend_equivalence_witness :
    Expr.eval (fun _ => 0) (get3 [[[Expr.const 0]]] 0 0 0) =
      Expr.eval (fun _ => 0) (get3 [[[Expr.const 0]]] 0 0 0) :=
  claim_C1_backend_equivalence [[Expr.const 1]] [0] [[[Expr.const 0]]]
    [[[Expr.const 0]]] rfl rfl 0 0 0 (by norm_num) (by norm_num) (by norm_num)
    (fun _ => 0)

theorem sph_entry_011 (v : ℕ → ℝ) (hr : v 0 ≠ 0) (hs : Real.sin (v 1) ≠ 0) :
    Expr.eval v (christEntryG sympyKernel sphMetric sphInv sphSyms 3 0 1 1) =
      -(v 0) := by
  have h : christEntryG sympyKernel sphMetric sphInv sphSyms 3 0 1 1 =
      Expr.mul (Expr.mul (Expr.mul sphA (Expr.inv sphA)) (Expr.inv (Expr.const 2)))
        (Expr.neg (Expr.mul (Expr.const 2) (Expr.pow (Expr.sym 0) 1))) := by rfl
  rw [h]
  simp only [Expr.eval, sphA]
  push_cast
  field_simp
  ring

theorem sph_entry_101 (v : ℕ → ℝ) (hr : v 0 ≠ 0) (hs : Real.sin (v 1) ≠ 0) :
    Expr.eval v (christEntryG sympyKernel sphMetric sphInv sphSyms 3 1 0 1) =
      1 / v 0 := by
  have h : christEntryG sympyKernel sphMetric sphInv sphSyms 3 1 0 1 =
      Expr.mul (Expr.mul (Expr.mul sphB (Expr.inv sphA)) (Expr.inv (Expr.const 2)))
        (Expr.mul (Expr.const 2) (Expr.pow (Expr.sym 0) 1)) := by rfl
  rw [h]
  simp only [Expr.eval, sphA, sphB]
  push_cast
  field_simp
  ring

theorem sph_entry_022 (v : ℕ → ℝ) (hr : v 0 ≠ 0) (hs : Real.sin (v 1) ≠ 0) :
    Expr.eval v (christEntryG sympyKernel sphMetric sphInv sphSyms 3 0 2 2) =
      -(v 0 * Real.sin (v 1) ^ 2) := by
  have h : christEntryG sympyKernel sphMetric sphInv sphSyms 3 0 2 2 =
      Expr.mul (Expr.mul (Expr.mul sphA (Expr.inv sphA)) (Expr.inv (Expr.const 2)))
        (Expr.neg (Expr.mul (Expr.mul (Expr.const 2) (Expr.pow (Expr.sym 0) 1))
          (Expr.pow (Expr.sin (Expr.sym 1)) 2))) := by rfl
  rw [h]
  simp only [Expr.eval, sphA]
  push_cast
  field_simp
  ring

theorem sph_entry_202 (v : ℕ → ℝ) (hr : v 0 ≠ 0) (hs : Real.sin (v 1) ≠ 0) :
    Expr.eval v (christEntryG sympyKernel sphMetric sphInv sphSyms 3 2 0 2) =
      1 / v 0 := by
  have h : christEntryG sympyKernel sphMetric sphInv sphSyms 3 2 0 2 =
      Expr.mul (Expr.mul (Expr.mul sphC (Expr.inv sphA)) (Expr.inv (Expr.const 2)))
        (Expr.mul (Expr.mul (Expr.const 2) (Expr.pow (Expr.sym 0) 1))
          (Expr.pow (Expr.sin (Expr.sym 1)) 2)) := by rfl
  rw [h]
  simp only [Expr.eval, sphA, sphC]
  push_cast
  field_simp
  ring

theorem sph_entry_122 (v : ℕ → ℝ) (hr : v 0 ≠ 0) (hs : Real.sin (v 1) ≠ 0) :
    Expr.eval v (christEntryG sympyKernel sphMetric sphInv sphSyms 3 1 2 2) =
      -(Real.sin (v 1) * Real.cos (v 1)) := by
  have h : christEntryG sympyKernel sphMetric sphInv sphSyms 3 1 2 2 =
      Expr.mul (Expr.mul (Expr.mul sphB (Expr.inv sphA)) (Expr.inv (Expr.const 2)))
        (Expr.neg (Expr.mul (Expr.pow (Expr.sym 0) 2)
          (Expr.mul (Expr.mul (Expr.const 2) (Expr.pow (Expr.sin (Expr.sym 1)) 1))
            (Expr.cos (Expr.sym 1))))) := by rfl
  rw [h]
  simp only [Expr.eval, sphA, sphB]
  push_cast
  field_simp
  ring

theorem sph_entry_212 (v : ℕ → ℝ) (hr : v 0 ≠ 0) (hs : Real.sin (v 1) ≠ 0) :
    Expr.eval v (christEntryG sympyKernel sphMetric sphInv sphSyms 3 2 1 2) =
      Real.cos (v 1) / Real.sin (v 1) := by
  have h : christEntryG sympyKernel sphMetric sphInv sphSyms 3 2 1 2 =
      Expr.mul (Expr.mul (Expr.mul sphC (Expr.inv sphA)) (Expr.inv (Expr.const 2)))
        (Expr.mul (Expr.pow (Expr.sym 0) 2)
          (Expr.mul (Expr.mul (Expr.const 2) (Expr.pow (Expr.sin (Expr.sym 1)) 1))
            (Expr.cos (Expr.sym 1)))) := by rfl
  rw [h]
  simp only [Expr.eval, sphA, sphC]
  push_cast
  field_simp
  ring

set_option maxHeartbeats 4000000 in
/-- C2: for the 3-dimensional spherical metric `diag(1, r^2, r^2 sin(theta)^2)`
with coordinates `(r, theta, phi)`, the reference engine succeeds; every
entry outside the nine standard positions is exactly the zero expression,
and at every real assignment with nondegenerate coordinates (`r` nonzero,
`sin(theta)` nonzero) the nine listed entries take the standard closed-form
values `-r`, `1/r`, `-r sin(theta)^2`, `-sin(theta) cos(theta)` and
`cos(theta)/sin(theta)`. -/
theorem claim_C2_spherical_closed_form :
    ∃ T, christoffels_reference sphMetric sphSyms = Except.ok T ∧
      (∀ i j k, i < 3 → j < 3 → k < 3 →
        (i, j, k) ∉ ([(0, 1, 1), (1, 0, 1), (1, 1, 0), (0, 2, 2), (2, 0, 2),
          (2, 2, 0), (1, 2, 2), (2, 1, 2), (2, 2, 1)] : List (ℕ × ℕ × ℕ)) →
        get3 T i j k = Expr.const 0) ∧
      ∀ v : ℕ → ℝ, v 0 ≠ 0 → Real.sin (v 1) ≠ 0 →
        Expr.eval v (get3 T 0 1 1) = -(v 0) ∧
        Expr.eval v (get3 T 1 0 1) = 1 / v 0 ∧
        Expr.eval v (get3 T 1 1 0) = 1 / v 0 ∧
        Expr.eval v (get3 T 0 2 2) = -(v 0 * Real.sin (v 1) ^ 2) ∧
        Expr.eval v (get3 T 2 0 2) = 1 / v 0 ∧
        Expr.eval v (get3 T 2 2 0) = 1 / v 0 ∧
        Expr.eval v (get3 T 1 2 2) = -(Real.sin (v 1) * Real.cos (v 1)) ∧
        Expr.eval v (get3 T 2 1 2) = Real.cos (v 1) / Real.sin (v 1) ∧
        Expr.eval v (get3 T 2 2 1) = Real.cos (v 1) / Real.sin (v 1) := by
  have hInv : matInv sphMetric = Except.ok sphInv := by rfl
  have hSq : Sq sphMetric sphSyms.length := by
    constructor
    · decide
    · intro r hr
      simp only [sphMetric, List.mem_cons, List.not_mem_nil, or_false] at hr
      rcases hr with rfl | rfl | rfl <;> decide
  obtain ⟨T, hT, hsh, hent⟩ :=
    christoffelsG_spec sympyKernel sphMetric sphSyms sphInv hInv hSq
  refine ⟨T, hT, ?_, ?_⟩
  · intro i j k hi hj hk hni
    rw [hent i j k hi hj hk, sympyKernel_kconv]
    interval_cases i <;> interval_cases j <;> interval_cases k <;>
      first
        | exact absurd (by decide) hni
        | decide
  · intro v hr hs
    refine ⟨?_, ?_, ?_, ?_, ?_, ?_, ?_, ?_, ?_⟩
    · rw [hent 0 1 1 (by decide) (by decide) (by decide), sympyKernel_kconv]
      exact sph_entry_011 v hr hs
    · rw [hent 1 0 1 (by decide) (by decide) (by decide), sympyKernel_kconv]
      exact sph_entry_101 v hr hs
    · rw [hent 1 1 0 (by decide) (by decide) (by decide), sympyKernel_kconv]
      exact sph_entry_101 v hr hs
    · rw [hent 0 2 2 (by decide) (by decide) (by decide), sympyKernel_kconv]
      exact sph_entry_022 v hr hs
    · rw [hent 2 0 2 (by decide) (by decide) (by decide), sympyKernel_kconv]
      exact sph_entry_202 v hr hs
    · rw [hent 2 2 0 (by decide) (by decide) (by decide), sympyKernel_kconv]
      exact sph_entry_202 v hr hs
    · rw [hent 1 2 2 (by decide) (by decide) (by decide), sympyKernel_kconv]
      exact sph_entry_122 v hr hs
    · rw [hent 2 1 2 (by decide) (by decide) (by decide), sympyKernel_kconv]
      exact sph_entry_212 v hr hs
    · rw [hent 2 2 1 (by decide) (by decide) (by decide), sympyKernel_kconv]
      exact sph_entry_212 v hr hs

set_option maxHeartbeats 4000000 in
/-- Witness for C2 at the concrete assignment `r = 1`, `theta = pi / 2`. -/
theorem claim_C2_spherical_closed_form_witness :
    ∃ T, christoffels_reference sphMetric sphSyms = Except.ok T ∧
      Expr.eval (fun n => if n = 1 then Real.pi / 2 else 1) (get3 T 0 1 1) =
        -((fun n : ℕ => if n = 1 then Real.pi / 2 else 1) 0) := by
  obtain ⟨T, hT, hz, hv⟩ := claim_C2_spherical_closed_form
  refine ⟨T, hT, ?_⟩
  have h0 : (fun n : ℕ => if n = 1 then Real.pi / 2 else 1) 0 ≠ 0 := by norm_num
  have h1 : Real.sin ((fun n : ℕ => if n = 1 then Real.pi / 2 else 1) 1) ≠ 0 := by
    simp [Real.sin_pi_div_two]
  exact (hv (fun n => if n = 1 then Real.pi / 2 else 1) h0 h1).1
